import Mathlib

/-!
# Rock Joint Analyzer - geometric post-processing core, shallow embedding

This file embeds the three core functions of the repository in Lean 4:

* `removeDuplicateLines` (src/utils/imageProcessing.ts, lines 33-92) together
  with its helpers `calculateDistance` (line 215) and `pointToLineDistance`
  (line 95);
* `clusterJointsByOrientation` with its inner `normalizeOrientation`
  (src/components/ResultsView.tsx, lines 37-99);
* `calculateFractureStats` (src/utils/exportUtils.ts, lines 24-67).

Modelling conventions:

* JavaScript `number` is embedded as `ℚ` (exact arithmetic; floating-point
  rounding and NaN are not modelled).
* Every use of `Math.sqrt` in the deduplicator occurs inside a comparison
  `sqrt d < t`; since `Real.sqrt` is monotone and `d ≥ 0`, this comparison is
  equivalent to `0 < t ∧ d < t * t`, which is how the comparisons are embedded
  (`distLt`, `pointToLineDistanceLt`).  The remaining `Math.sqrt` (the scan
  line length in `calculateFractureStats`) is embedded as `Rat.sqrt`, a
  computable stand-in that is zero/positive exactly when its argument is, which
  is the only property the guard `scanLineLength > 0` consults.
* JavaScript `Array.prototype.sort` is stable; together with the comparators
  used by the source (`b.length - a.length`, `a - b`, `b.count - a.count`) its
  result is the unique stable sort by the corresponding total preorder, which
  `List.insertionSort` computes.
* `x || 0` on a `number` is the identity except at `0` (where it is `0` again)
  and at `NaN`/`undefined`; the optional `orientation` is embedded as
  `Option ℚ` with `Option.getD 0` for `j.orientation || 0`.
-/

namespace RockJoint

/-- `Point` from src/types/index.ts: a 2-D pixel coordinate. -/
structure Point where
  x : ℚ
  y : ℚ
deriving DecidableEq, Repr

/-- `LineSegment` from src/utils/imageProcessing.ts (lines 14-19): endpoints
plus the `angle` and `length` fields stored on the record (they are computed
once at construction by the detector and read as plain data by
`removeDuplicateLines`). -/
structure LineSegment where
  start : Point
  «end» : Point
  angle : ℚ
  length : ℚ
deriving DecidableEq, Repr

/-- Squared Euclidean distance between two points.  The source function
`calculateDistance` (imageProcessing.ts line 215) returns
`Math.sqrt` of this value. -/
def calculateDistanceSq (p1 p2 : Point) : ℚ :=
  (p2.x - p1.x) * (p2.x - p1.x) + (p2.y - p1.y) * (p2.y - p1.y)

/-- The comparison `calculateDistance p1 p2 < t` from the source, expressed on
squares: for `d ≥ 0`, `sqrt d < t ↔ 0 < t ∧ d < t * t`. -/
def distLt (p1 p2 : Point) (t : ℚ) : Bool :=
  decide (0 < t) && decide (calculateDistanceSq p1 p2 < t * t)

/-- The numerator cross product of `pointToLineDistance`
(imageProcessing.ts line 103):
`dy * point.x - dx * point.y + lineEnd.x * lineStart.y - lineEnd.y * lineStart.x`. -/
def crossTerm (point lineStart lineEnd : Point) : ℚ :=
  (lineEnd.y - lineStart.y) * point.x - (lineEnd.x - lineStart.x) * point.y
    + lineEnd.x * lineStart.y - lineEnd.y * lineStart.x

/-- The comparison `pointToLineDistance point lineStart lineEnd < t` from the
source (imageProcessing.ts lines 95-105), on squares.  The source computes
`|cross| / length`, the UNCLAMPED distance to the infinite line through
`lineStart` and `lineEnd`, falling back to `calculateDistance point lineStart`
when `length === 0`.  For `L2 > 0`, `|c| / sqrt L2 < t ↔ 0 < t ∧ c^2 < t^2 * L2`. -/
def pointToLineDistanceLt (point lineStart lineEnd : Point) (t : ℚ) : Bool :=
  if calculateDistanceSq lineStart lineEnd = 0 then
    distLt point lineStart t
  else
    decide (0 < t) &&
      decide (crossTerm point lineStart lineEnd * crossTerm point lineStart lineEnd
        < t * t * calculateDistanceSq lineStart lineEnd)

/-- Midpoint of a segment (`mid1`/`mid2` in imageProcessing.ts lines 59-66). -/
def midpointOf (s : LineSegment) : Point :=
  ⟨(s.start.x + s.«end».x) / 2, (s.start.y + s.«end».y) / 2⟩

/-- The endpoint proximity test of `removeDuplicateLines` (imageProcessing.ts
lines 43-50): the candidate's endpoints are each within `threshold` of the
existing segment's endpoints, in either pairing (`match1 || match2`).  These
are plain endpoint-to-endpoint Euclidean distances. -/
def endpointMatch (segment existing : LineSegment) (threshold : ℚ) : Bool :=
  (distLt segment.start existing.start threshold &&
      distLt segment.«end» existing.«end» threshold) ||
    (distLt segment.start existing.«end» threshold &&
      distLt segment.«end» existing.start threshold)

/-- `Math.abs(segment.angle - existing.angle)` folded to treat angles differing
by about 180 degrees as equal (imageProcessing.ts lines 71-72). -/
def normalizedAngleDiff (a b : ℚ) : ℚ :=
  if |a - b| > 90 then 180 - |a - b| else |a - b|

/-- The collinear-containment test of `removeDuplicateLines` (imageProcessing.ts
lines 57-83): near-parallel angles, midpoints within half the longer length,
and both candidate endpoints within `threshold` of the existing segment's
infinite line. -/
def collinearContainment (segment existing : LineSegment) (threshold : ℚ) : Bool :=
  (decide (normalizedAngleDiff segment.angle existing.angle < 10) &&
      distLt (midpointOf segment) (midpointOf existing)
        (max segment.length existing.length * (1 / 2))) &&
    (pointToLineDistanceLt segment.start existing.start existing.«end» threshold &&
      pointToLineDistanceLt segment.«end» existing.start existing.«end» threshold)

/-- The body of the inner loop of `removeDuplicateLines`: the candidate
`segment` is judged a duplicate of the already accepted `existing` segment when
either the endpoint proximity test or the collinear-containment test fires. -/
def isDuplicateOf (segment existing : LineSegment) (threshold : ℚ) : Bool :=
  endpointMatch segment existing threshold || collinearContainment segment existing threshold

/-- One iteration of the outer loop of `removeDuplicateLines` (lines 38-89):
a candidate is appended to the accepted list only if it is not a duplicate of
any already accepted segment. -/
def dedupStep (threshold : ℚ) (result : List LineSegment) (segment : LineSegment) :
    List LineSegment :=
  if result.any (fun existing => isDuplicateOf segment existing threshold) then result
  else result ++ [segment]

/-- Descending length order: the JS comparator `(a, b) => b.length - a.length`
sorts so that an element `a` may precede `b` exactly when `b.length ≤ a.length`. -/
def lenGe (a b : LineSegment) : Prop :=
  b.length ≤ a.length

instance : DecidableRel lenGe := fun a b =>
  inferInstanceAs (Decidable (b.length ≤ a.length))

instance : IsTotal LineSegment lenGe :=
  ⟨fun a b => le_total b.length a.length⟩

instance : IsTrans LineSegment lenGe :=
  ⟨fun _ _ _ h1 h2 => le_trans h2 h1⟩

/-- `[...segments].sort((a, b) => b.length - a.length)` (imageProcessing.ts
line 35): the stable sort by length, descending, of a copy of the input. -/
def sortByLengthDesc (segments : List LineSegment) : List LineSegment :=
  List.insertionSort lenGe segments

/-- `removeDuplicateLines` (imageProcessing.ts lines 33-92). -/
def removeDuplicateLines (segments : List LineSegment) (threshold : ℚ) :
    List LineSegment :=
  (sortByLengthDesc segments).foldl (dedupStep threshold) []

/-! ## Spec-side clamped point-to-segment distance (for C3)

The spec describes the endpoint test as using a clamped point-to-segment
projection.  The following definitions follow the spec's words so they can be
compared with the source's `endpointMatch` and `pointToLineDistanceLt`. -/

/-- Projection numerator `(point - lineStart) . (lineEnd - lineStart)`: the
projection parameter of the spec is this value divided by the squared segment
length. -/
def dotParam (point lineStart lineEnd : Point) : ℚ :=
  (point.x - lineStart.x) * (lineEnd.x - lineStart.x) +
    (point.y - lineStart.y) * (lineEnd.y - lineStart.y)

/-- Follows the spec's words: squared point-to-segment distance with the
projection parameter clamped to `[0, 1]`, so the distance is measured to the
nearest point on the segment (the start when the parameter clamps at 0, the
end when it clamps at 1, the perpendicular foot in between). -/
def pointToSegDistSqSpec (point lineStart lineEnd : Point) : ℚ :=
  if calculateDistanceSq lineStart lineEnd = 0 then calculateDistanceSq point lineStart
  else if dotParam point lineStart lineEnd ≤ 0 then calculateDistanceSq point lineStart
  else if calculateDistanceSq lineStart lineEnd ≤ dotParam point lineStart lineEnd then
    calculateDistanceSq point lineEnd
  else
    calculateDistanceSq point lineStart -
      dotParam point lineStart lineEnd * dotParam point lineStart lineEnd /
        calculateDistanceSq lineStart lineEnd

/-- Follows the spec's words: `clamped point-to-segment distance < t`, on
squares. -/
def pointToSegDistLtSpec (point lineStart lineEnd : Point) (t : ℚ) : Bool :=
  decide (0 < t) && decide (pointToSegDistSqSpec point lineStart lineEnd < t * t)

/-- Follows the spec's words for the endpoint proximity test as the claim reads
it: each candidate endpoint within `threshold` of the accepted segment, the
distance being the clamped point-to-segment distance. -/
def endpointMatchSpec (segment existing : LineSegment) (threshold : ℚ) : Bool :=
  pointToSegDistLtSpec segment.start existing.start existing.«end» threshold &&
    pointToSegDistLtSpec segment.«end» existing.start existing.«end» threshold

/-! ## Joints, orientation clustering (src/components/ResultsView.tsx) -/

/-- `Joint` from src/types/index.ts (lines 54-63).  The declared type of
`orientation` is `number`, but every consumer guards it (`j.orientation || 0`,
`joint.orientation?.toFixed`), so a runtime-absent value is representable;
`none` models `undefined`. -/
structure Joint where
  id : String
  start : Point
  «end» : Point
  lengthPixels : ℚ
  lengthMeters : ℚ
  orientation : Option ℚ
deriving DecidableEq, Repr

/-- Truncation toward zero, the rounding JavaScript's `%` operator applies to
the quotient. -/
def ratTrunc (q : ℚ) : ℤ :=
  if 0 ≤ q then ⌊q⌋ else ⌈q⌉

/-- JavaScript remainder `a % n` (sign follows the dividend):
`a - n * trunc (a / n)`. -/
def jsMod (a n : ℚ) : ℚ :=
  a - n * ratTrunc (a / n)

/-- `normalizeOrientation` (ResultsView.tsx lines 41-46): `angle % 360`, add
360 if negative, subtract 180 if at least 180. -/
def normalizeOrientation (angle : ℚ) : ℚ :=
  let n1 := jsMod angle 360
  let n2 := if n1 < 0 then n1 + 360 else n1
  if n2 ≥ 180 then n2 - 180 else n2

/-- The normalized orientation the clusterer computes for a joint
(ResultsView.tsx line 51): `normalizeOrientation(j.orientation || 0)`. -/
def normalizedOrientationOf (j : Joint) : ℚ :=
  normalizeOrientation (j.orientation.getD 0)

/-- `Math.floor(orientation / binSize) * binSize` with `binSize = 15`
(ResultsView.tsx line 59). -/
def binKey (o : ℚ) : ℚ :=
  (⌊o / 15⌋ : ℤ) * 15

/-- One bin of the clusterer's `Map` (ResultsView.tsx line 56): its key and the
member joints and normalized orientations, in insertion order. -/
structure Bin where
  key : ℚ
  joints : List Joint
  orientations : List ℚ
deriving DecidableEq, Repr

/-- `bins.get(binIndex)!.joints.push(joint)` over an insertion-ordered map
(ResultsView.tsx lines 60-64): append to the bin with the given key, creating
the bin at the end if the key is new. -/
def addToBins : List Bin → ℚ → Joint → ℚ → List Bin
  | [], key, j, o => [⟨key, [j], [o]⟩]
  | b :: rest, key, j, o =>
    if b.key = key then ⟨b.key, b.joints ++ [j], b.orientations ++ [o]⟩ :: rest
    else b :: addToBins rest key j o

/-- One iteration of the `orientations.forEach` loop of ResultsView.tsx lines
58-65: put the joint (with its normalized orientation) into the bin keyed
`Math.floor(orientation / 15) * 15`. -/
def binStep (bins : List Bin) (j : Joint) : List Bin :=
  addToBins bins (binKey (normalizedOrientationOf j)) j (normalizedOrientationOf j)

/-- The bins built by `clusterJointsByOrientation` before any sorting or
truncation (ResultsView.tsx lines 48-65): a JavaScript `Map` iterates in key
insertion order, embedded here as an ordered association list. -/
def binsOf (joints : List Joint) : List Bin :=
  joints.foldl binStep []

/-- `JointSet` (ResultsView.tsx lines 12-20).  `meanOrientation` is
`Math.round`ed, hence an integer. -/
structure JointSet where
  id : ℕ
  meanOrientation : ℤ
  count : ℕ
  joints : List Joint
  totalLength : ℚ
  meanLength : ℚ
  color : String
deriving DecidableEq, Repr

/-- `SET_COLORS` (ResultsView.tsx lines 23-27): the fixed 12-color palette. -/
def SET_COLORS : List String :=
  ["#e74c3c", "#3498db", "#2ecc71", "#f39c12", "#9b59b6",
    "#1abc9c", "#e67e22", "#34495e", "#16a085", "#c0392b",
    "#2980b9", "#27ae60"]

/-- `Math.round q`: JavaScript rounds half toward positive infinity, that is
`floor (q + 1/2)`. -/
def jsRound (q : ℚ) : ℤ :=
  ⌊q + 1 / 2⌋

/-- The `bins.forEach` of ResultsView.tsx lines 68-86: turn each (always
non-empty) bin into a `JointSet`, numbering with the running `setId` counter.
In the source `id: setId++` yields the pre-increment value and the color index
`(setId - 2)` is read after the increment, so a set numbered `id` is created
with color index `id - 1`. -/
def setStep (acc : List JointSet × ℕ) (bin : Bin) : List JointSet × ℕ :=
  if 0 < bin.joints.length then
    let meanOrientation := bin.orientations.foldl (· + ·) 0 / (bin.orientations.length : ℚ)
    let totalLength := bin.joints.foldl (fun sum j => sum + j.lengthMeters) 0
    (acc.1 ++
        [⟨acc.2, jsRound meanOrientation, bin.joints.length, bin.joints, totalLength,
          if 0 < bin.joints.length then totalLength / (bin.joints.length : ℚ) else 0,
          SET_COLORS.getD ((acc.2 - 1) % SET_COLORS.length) ""⟩],
      acc.2 + 1)
  else acc

/-- See `setStep`. -/
def setsOfBins (bins : List Bin) : List JointSet :=
  (bins.foldl setStep ([], 1)).1

/-- Descending member-count order: the JS comparator `(a, b) => b.count - a.count`. -/
def countGe (a b : JointSet) : Prop :=
  b.count ≤ a.count

instance : DecidableRel countGe := fun a b =>
  inferInstanceAs (Decidable (b.count ≤ a.count))

instance : IsTotal JointSet countGe :=
  ⟨fun a b => le_total b.count a.count⟩

instance : IsTrans JointSet countGe :=
  ⟨fun _ _ _ h1 h2 => le_trans h2 h1⟩

/-- The final `sets.forEach` of ResultsView.tsx lines 93-96: reassign
`id = index + 1` and `color = SET_COLORS[index % SET_COLORS.length]`, all other
fields unchanged. -/
def reassignSets : ℕ → List JointSet → List JointSet
  | _, [] => []
  | i, s :: rest =>
    ⟨i + 1, s.meanOrientation, s.count, s.joints, s.totalLength, s.meanLength,
        SET_COLORS.getD (i % SET_COLORS.length) ""⟩ ::
      reassignSets (i + 1) rest

/-- `clusterJointsByOrientation` (ResultsView.tsx lines 37-99): bin by
normalized orientation, convert bins to sets, sort by count descending
(`sets.sort`, stable), truncate to `maxSets` (`sets.slice(0, maxSets)`), and
reassign ranks and colors. -/
def clusterJointsByOrientation (joints : List Joint) (maxSets : ℕ) : List JointSet :=
  if joints.length = 0 then []
  else
    reassignSets 0 ((List.insertionSort countGe (setsOfBins (binsOf joints))).take maxSets)

/-! ## Fracture statistics (src/utils/exportUtils.ts) -/

/-- `ScaleData` from src/types/index.ts (lines 39-46); only `pixelsPerMeter`
is read by the statistics calculator. -/
structure ScaleData where
  pixelsPerMeter : ℚ
deriving DecidableEq, Repr

/-- `FractureStats` from src/types/index.ts (lines 68-78). -/
structure FractureStats where
  jointCount : ℕ
  totalLength : ℚ
  meanLength : ℚ
  medianLength : ℚ
  minLength : ℚ
  maxLength : ℚ
  areaAnalyzed : ℚ
  p21 : ℚ
  frequency : ℚ
deriving DecidableEq, Repr

/-- `Math.min(...l)` for the non-empty lists it is applied to (the empty case
is unreachable behind the `joints.length > 0` guard; this embedding returns 0
there). -/
def listMin : List ℚ → ℚ
  | [] => 0
  | x :: xs => xs.foldl min x

/-- `Math.max(...l)`, as for `listMin`. -/
def listMax : List ℚ → ℚ
  | [] => 0
  | x :: xs => xs.foldl max x

/-- `calculateFractureStats` (exportUtils.ts lines 24-67).  `x || 0` on the
`ℚ`-valued `lengthMeters` is the identity (it only rewrites the falsy `0` to
`0`), so it is dropped.  `Math.sqrt` is embedded as `Rat.sqrt`, which is
positive exactly when its argument is; the guard `scanLineLength > 0` is the
only consumer of its value that any claim touches.  Division by zero is `0` in
`ℚ` where JavaScript would produce an infinity; no claim concerns that case. -/
def calculateFractureStats (joints : List Joint) (scale : ScaleData)
    (photoWidth photoHeight : ℚ) : FractureStats :=
  let widthMeters := photoWidth / scale.pixelsPerMeter
  let heightMeters := photoHeight / scale.pixelsPerMeter
  let areaAnalyzed := widthMeters * heightMeters
  let totalLength := joints.foldl (fun sum j => sum + j.lengthMeters) 0
  let meanLength := if 0 < joints.length then totalLength / (joints.length : ℚ) else 0
  let sortedLengths := List.insertionSort (· ≤ ·) (joints.map fun j => j.lengthMeters)
  let medianLength :=
    if 0 < joints.length then sortedLengths.getD (sortedLengths.length / 2) 0 else 0
  let minLength := if 0 < joints.length then listMin sortedLengths else 0
  let maxLength := if 0 < joints.length then listMax sortedLengths else 0
  let p21 := if 0 < areaAnalyzed then totalLength / areaAnalyzed else 0
  let scanLineLength := Rat.sqrt areaAnalyzed
  let frequency := if 0 < scanLineLength then (joints.length : ℚ) / scanLineLength else 0
  ⟨joints.length, totalLength, meanLength, medianLength, minLength, maxLength,
    areaAnalyzed, p21, frequency⟩

/-- Follows the spec's words for the median: sort the lengths ascending and
take the element at index `floor (n / 2)` (upper-median convention). -/
def medianSpec (l : List ℚ) : ℚ :=
  (List.insertionSort (· ≤ ·) l).getD (l.length / 2) 0

/-! ## Concrete instances used by counterexamples and witnesses -/

/-- A horizontal 100-px segment on the x-axis. -/
def segA : LineSegment := ⟨⟨0, 0⟩, ⟨100, 0⟩, 0, 100⟩

/-- A parallel 98-px segment 13 px above `segA`: both endpoint distances to
`segA` are `sqrt 170 < 15`, so it is judged a duplicate of `segA`. -/
def segB : LineSegment := ⟨⟨1, 13⟩, ⟨99, 13⟩, 0, 98⟩

/-- A parallel 96-px segment 13 px above `segB` (26 px above `segA`): judged a
duplicate of `segB` (endpoint distances `sqrt 170`) but of neither test against
`segA` (endpoint distances at least `sqrt 680`, perpendicular distance 26). -/
def segC : LineSegment := ⟨⟨2, 26⟩, ⟨98, 26⟩, 0, 96⟩

/-- A short segment lying 5 px above the middle of `segA`: its clamped
point-to-segment distances to `segA` are 5, while its distances to `segA`'s
endpoints all exceed 40. -/
def segD : LineSegment := ⟨⟨40, 5⟩, ⟨60, 5⟩, 0, 20⟩

/-- A 3-m joint. -/
def jointA : Joint := ⟨"j1", ⟨0, 0⟩, ⟨300, 0⟩, 300, 3, some 0⟩

/-- A 5-m joint. -/
def jointB : Joint := ⟨"j2", ⟨0, 0⟩, ⟨0, 500⟩, 500, 5, some 90⟩

/-- A joint whose `orientation` is absent at runtime. -/
def jointC : Joint := ⟨"j3", ⟨0, 0⟩, ⟨100, 0⟩, 100, 1, none⟩

/-- A calibration of 100 pixels per meter. -/
def scale100 : ScaleData := ⟨100⟩

/-- Placeholder default for `List.getD` on `JointSet` lists (never selected at
in-range indices). -/
def dummyJointSet : JointSet := ⟨0, 0, 0, [], 0, 0, ""⟩

end RockJoint

/-! ## Theorems -/

namespace RockJoint

/-- Helper: an integer `m` with `a - 180 * m` in `[0, 180)` is `⌊a / 180⌋`. -/
theorem floor_unique_aux (a : ℚ) (m : ℤ) (h0 : 0 ≤ a - 180 * m) (h1 : a - 180 * m < 180) :
    ⌊a / 180⌋ = m := by
  have h180 : (0 : ℚ) < 180 := by norm_num
  rw [Int.floor_eq_iff]
  constructor
  · rw [le_div_iff₀ h180]
    linarith
  · rw [div_lt_iff₀ h180]
    linarith

/-- `normalizeOrientation` computes the canonical representative of its
argument modulo 180. -/
theorem normalizeOrientation_eq (a : ℚ) :
    normalizeOrientation a = a - 180 * ⌊a / 180⌋ := by
  have h360 : (0 : ℚ) < 360 := by norm_num
  unfold normalizeOrientation jsMod ratTrunc
  rcases le_or_lt 0 (a / 360) with hq | hq
  · rw [if_pos hq]
    have hfl : ((⌊a / 360⌋ : ℤ) : ℚ) * 360 ≤ a := (le_div_iff₀ h360).mp (Int.floor_le _)
    have hfu : a < ((⌊a / 360⌋ : ℤ) : ℚ) * 360 + 360 := by
      have := (div_lt_iff₀ h360).mp (Int.lt_floor_add_one (a / 360))
      push_cast at this
      linarith
    set t : ℤ := ⌊a / 360⌋ with ht
    dsimp only
    split_ifs with hneg hbig hbig
    · exfalso
      linarith
    · exfalso
      linarith
    · have hm : ⌊a / 180⌋ = 2 * t + 1 := by
        apply floor_unique_aux
        · push_cast
          linarith
        · push_cast
          linarith
      rw [hm]
      push_cast
      ring
    · have hm : ⌊a / 180⌋ = 2 * t := by
        apply floor_unique_aux
        · push_cast
          linarith
        · push_cast
          push_cast at hbig
          linarith
      rw [hm]
      push_cast
      ring
  · rw [if_neg (not_le.mpr hq)]
    have hcl : a ≤ ((⌈a / 360⌉ : ℤ) : ℚ) * 360 := by
      have := Int.le_ceil (a / 360)
      rw [div_le_iff₀ h360] at this
      linarith
    have hcu : ((⌈a / 360⌉ : ℤ) : ℚ) * 360 - 360 < a := by
      have h1 := Int.ceil_lt_add_one (a / 360)
      have h2 : ((⌈a / 360⌉ : ℤ) : ℚ) - 1 < a / 360 := by linarith
      have := (lt_div_iff₀ h360).mp h2
      linarith
    set t : ℤ := ⌈a / 360⌉ with ht
    dsimp only
    split_ifs with hneg hbig hbig
    · have hm : ⌊a / 180⌋ = 2 * t - 1 := by
        apply floor_unique_aux
        · push_cast
          linarith
        · push_cast
          linarith
      rw [hm]
      push_cast
      ring
    · have hm : ⌊a / 180⌋ = 2 * t - 2 := by
        apply floor_unique_aux
        · push_cast
          linarith
        · push_cast
          push_cast at hbig
          linarith
      rw [hm]
      push_cast
      ring
    · exfalso
      linarith
    · have hm : ⌊a / 180⌋ = 2 * t := by
        apply floor_unique_aux
        · push_cast
          linarith
        · push_cast
          linarith
      rw [hm]
      push_cast
      ring

/-- C5: the clusterer's orientation normalization satisfies
`normalize (a + 180) = normalize a`, `normalize (a - 360) = normalize a`, and
`normalize a` lies in `[0, 180)`, for every angle `a`. -/
theorem normalizeOrientation_spec (a : ℚ) :
    normalizeOrientation (a + 180) = normalizeOrientation a ∧
    normalizeOrientation (a - 360) = normalizeOrientation a ∧
    0 ≤ normalizeOrientation a ∧ normalizeOrientation a < 180 := by
  refine ⟨?_, ?_, ?_, ?_⟩
  · rw [normalizeOrientation_eq, normalizeOrientation_eq]
    have h1 : (a + 180) / 180 = a / 180 + 1 := by ring
    rw [h1, Int.floor_add_one]
    push_cast
    ring
  · rw [normalizeOrientation_eq, normalizeOrientation_eq]
    have h1 : (a - 360) / 180 = a / 180 - (2 : ℤ) := by push_cast; ring
    rw [h1, Int.floor_sub_int]
    push_cast
    ring
  · rw [normalizeOrientation_eq]
    have := (le_div_iff₀ (by norm_num : (0 : ℚ) < 180)).mp (Int.floor_le (a / 180))
    linarith
  · rw [normalizeOrientation_eq]
    have := (div_lt_iff₀ (by norm_num : (0 : ℚ) < 180)).mp (Int.lt_floor_add_one (a / 180))
    push_cast at this
    linarith


/-- C8: for a non-empty joint list, `medianLength` is the element at index
`floor (n / 2)` of the `lengthMeters` values sorted ascending (upper-median
convention); in particular for lengths `[3, 5]` the median is `5`. -/
theorem calculateFractureStats_median :
    (∀ (joints : List Joint) (scale : ScaleData) (w h : ℚ), joints ≠ [] →
      (calculateFractureStats joints scale w h).medianLength =
        medianSpec (joints.map fun j => j.lengthMeters)) ∧
    (calculateFractureStats [jointA, jointB] scale100 1000 800).medianLength = 5 := by
  constructor
  · intro joints scale w h hne
    simp only [calculateFractureStats, medianSpec]
    rw [if_pos (List.length_pos.mpr hne), List.length_insertionSort, List.length_map]
  · norm_num [calculateFractureStats, jointA, jointB, scale100, List.insertionSort,
      List.orderedInsert]

/-- Helper: after `addToBins`, some bin with the given key contains the newly
inserted joint. -/
theorem addToBins_mem_new (bins : List Bin) (key : ℚ) (j : Joint) (o : ℚ) :
    ∃ b ∈ addToBins bins key j o, b.key = key ∧ j ∈ b.joints := by
  induction bins with
  | nil => exact ⟨⟨key, [j], [o]⟩, by simp [addToBins], rfl, by simp⟩
  | cons b rest ih =>
    by_cases hb : b.key = key
    · exact ⟨⟨b.key, b.joints ++ [j], b.orientations ++ [o]⟩, by simp [addToBins, hb],
        hb, by simp⟩
    · obtain ⟨b', hb', hkey, hmem⟩ := ih
      exact ⟨b', by simp [addToBins, hb, hb'], hkey, hmem⟩

/-- Helper: `addToBins` keeps every joint already stored in a bin, in a bin
with an unchanged key. -/
theorem addToBins_mem_preserved (bins : List Bin) (key : ℚ) (j : Joint) (o : ℚ)
    (b : Bin) (hb : b ∈ bins) (x : Joint) (hx : x ∈ b.joints) :
    ∃ b' ∈ addToBins bins key j o, b'.key = b.key ∧ x ∈ b'.joints := by
  induction bins with
  | nil => simp at hb
  | cons c rest ih =>
    by_cases hc : c.key = key
    · rcases List.mem_cons.mp hb with rfl | hbr
      · exact ⟨⟨b.key, b.joints ++ [j], b.orientations ++ [o]⟩, by simp [addToBins, hc],
          rfl, by simp [hx]⟩
      · exact ⟨b, by simp [addToBins, hc, hbr], rfl, hx⟩
    · rcases List.mem_cons.mp hb with rfl | hbr
      · exact ⟨b, by simp [addToBins, hc], rfl, hx⟩
      · obtain ⟨b', hb', hkey, hmem⟩ := ih hbr
        exact ⟨b', by simp [addToBins, hc, hb'], hkey, hmem⟩

/-- Helper: after folding `binStep` over a joint list, every joint of the list
(and every joint already binned) sits in a bin keyed by its normalized
orientation's bin key. -/
theorem foldl_binStep_mem (l : List Joint) (bins : List Bin) (j : Joint)
    (h : j ∈ l ∨ ∃ b ∈ bins, b.key = binKey (normalizedOrientationOf j) ∧ j ∈ b.joints) :
    ∃ b ∈ l.foldl binStep bins, b.key = binKey (normalizedOrientationOf j) ∧ j ∈ b.joints := by
  induction l generalizing bins with
  | nil =>
    rcases h with hmem | hbin
    · simp at hmem
    · exact hbin
  | cons s rest ih =>
    simp only [List.foldl_cons]
    apply ih
    rcases h with hmem | ⟨b, hb, hkey, hjb⟩
    · rcases List.mem_cons.mp hmem with rfl | hr
      · exact Or.inr (addToBins_mem_new bins _ j _)
      · exact Or.inl hr
    · obtain ⟨b', h1, h2, h3⟩ := addToBins_mem_preserved bins
        (binKey (normalizedOrientationOf s)) s (normalizedOrientationOf s) b hb j hjb
      exact Or.inr ⟨b', h1, h2.trans hkey, h3⟩

/-- C9: a joint whose `orientation` is absent is treated as orientation 0 by
the clusterer: it lands in the bin with key 0, the `[0, 15)` bin. -/
theorem cluster_missing_orientation_binned (joints : List Joint) (j : Joint)
    (h1 : j ∈ joints) (h2 : j.orientation = none) :
    ∃ b ∈ binsOf joints, b.key = 0 ∧ j ∈ b.joints := by
  have hnorm : normalizedOrientationOf j = 0 := by
    norm_num [normalizedOrientationOf, h2, normalizeOrientation, jsMod, ratTrunc]
  have hkey : binKey (normalizedOrientationOf j) = 0 := by
    rw [hnorm]
    norm_num [binKey]
  have h := foldl_binStep_mem joints [] j (Or.inl h1)
  rw [hkey] at h
  exact h

/-- Witness for C9 at the concrete joint `jointC`. -/
theorem cluster_missing_orientation_binned_witness :
    ∃ b ∈ binsOf [jointC], b.key = 0 ∧ jointC ∈ b.joints :=
  cluster_missing_orientation_binned [jointC] jointC (by simp) rfl

/-- Witness for C8 at the concrete two-joint list. -/
theorem calculateFractureStats_median_witness :
    (calculateFractureStats [jointA, jointB] scale100 1000 800).medianLength =
      medianSpec ([jointA, jointB].map fun j => j.lengthMeters) :=
  calculateFractureStats_median.1 [jointA, jointB] scale100 1000 800 (by simp)


theorem addToBins_join_perm (bins : List Bin) (key : ℚ) (j : Joint) (o : ℚ) :
    ((addToBins bins key j o).map Bin.joints).flatten.Perm
      (j :: (bins.map Bin.joints).flatten) := by
  induction bins with
  | nil => simp [addToBins]
  | cons b rest ih =>
    by_cases hb : b.key = key
    · simp only [addToBins, if_pos hb, List.map_cons, List.flatten_cons, List.append_assoc]
      exact List.perm_middle
    · simp only [addToBins, if_neg hb, List.map_cons, List.flatten_cons]
      exact (ih.append_left b.joints).trans List.perm_middle

theorem foldl_binStep_join_perm (l : List Joint) (bins : List Bin) :
    ((l.foldl binStep bins).map Bin.joints).flatten.Perm
      ((bins.map Bin.joints).flatten ++ l) := by
  induction l generalizing bins with
  | nil => simp
  | cons j rest ih =>
    simp only [List.foldl_cons]
    refine ((ih (binStep bins j)).trans ?_)
    refine (((addToBins_join_perm bins _ j _).append_right rest).trans ?_)
    exact List.perm_middle.symm

theorem addToBins_keys (bins : List Bin) (key : ℚ) (j : Joint) (o : ℚ) :
    (addToBins bins key j o).map Bin.key =
      if key ∈ bins.map Bin.key then bins.map Bin.key else bins.map Bin.key ++ [key] := by
  induction bins with
  | nil => simp [addToBins]
  | cons b rest ih =>
    by_cases hb : b.key = key
    · simp [addToBins, hb]
    · by_cases hmem : key ∈ rest.map Bin.key
      · simp [addToBins, hb, ih, hmem, Ne.symm hb]
      · simp [addToBins, hb, ih, hmem, Ne.symm hb]

theorem addToBins_keys_nodup (bins : List Bin) (key : ℚ) (j : Joint) (o : ℚ)
    (h : (bins.map Bin.key).Nodup) : ((addToBins bins key j o).map Bin.key).Nodup := by
  rw [addToBins_keys]
  by_cases hmem : key ∈ bins.map Bin.key
  · rwa [if_pos hmem]
  · rw [if_neg hmem, List.nodup_append]
    refine ⟨h, List.nodup_singleton key, ?_⟩
    intro a ha hak
    rw [List.mem_singleton] at hak
    exact hmem (hak ▸ ha)

theorem foldl_binStep_keys_nodup (l : List Joint) (bins : List Bin)
    (h : (bins.map Bin.key).Nodup) : (((l.foldl binStep bins).map Bin.key)).Nodup := by
  induction l generalizing bins with
  | nil => exact h
  | cons j rest ih =>
    simp only [List.foldl_cons]
    exact ih _ (addToBins_keys_nodup bins _ j _ h)

theorem addToBins_nonempty (bins : List Bin) (key : ℚ) (j : Joint) (o : ℚ)
    (h : ∀ b ∈ bins, b.joints ≠ []) : ∀ b ∈ addToBins bins key j o, b.joints ≠ [] := by
  induction bins with
  | nil =>
    intro b hb
    simp only [addToBins, List.mem_singleton] at hb
    subst hb
    simp
  | cons c rest ih =>
    intro b hb
    by_cases hc : c.key = key
    · simp only [addToBins, if_pos hc, List.mem_cons] at hb
      rcases hb with rfl | hbr
      · simp
      · exact h b (List.mem_cons_of_mem c hbr)
    · simp only [addToBins, if_neg hc, List.mem_cons] at hb
      rcases hb with rfl | hbr
      · exact h b (by simp)
      · exact ih (fun x hx => h x (List.mem_cons_of_mem c hx)) b hbr

theorem binsOf_nonempty (joints : List Joint) : ∀ b ∈ binsOf joints, b.joints ≠ [] := by
  suffices h : ∀ (l : List Joint) (bins : List Bin), (∀ b ∈ bins, b.joints ≠ []) →
      ∀ b ∈ l.foldl binStep bins, b.joints ≠ [] by
    exact h joints [] (by simp)
  intro l
  induction l with
  | nil => intro bins h b hb; exact h b hb
  | cons j rest ih =>
    intro bins h b hb
    exact ih _ (addToBins_nonempty bins _ j _ h) b hb

theorem setStep_joints (acc : List JointSet × ℕ) (bin : Bin) :
    ((setStep acc bin).1).map JointSet.joints =
      acc.1.map JointSet.joints ++ if 0 < bin.joints.length then [bin.joints] else [] := by
  by_cases hb : 0 < bin.joints.length
  · simp [setStep, hb]
  · simp [setStep, hb]

theorem setsOfBins_foldl_joints (bins : List Bin) (acc : List JointSet × ℕ)
    (h : ∀ b ∈ bins, b.joints ≠ []) :
    ((bins.foldl setStep acc).1).map JointSet.joints =
      acc.1.map JointSet.joints ++ bins.map Bin.joints := by
  induction bins generalizing acc with
  | nil => simp
  | cons b rest ih =>
    simp only [List.foldl_cons, List.map_cons]
    rw [ih (setStep acc b) (fun x hx => h x (List.mem_cons_of_mem b hx)), setStep_joints]
    have hb : 0 < b.joints.length := List.length_pos.mpr (h b (List.mem_cons_self b rest))
    rw [if_pos hb]
    simp

theorem setsOfBins_joints (joints : List Joint) :
    (setsOfBins (binsOf joints)).map JointSet.joints = (binsOf joints).map Bin.joints := by
  have := setsOfBins_foldl_joints (binsOf joints) ([], 1)
    (binsOf_nonempty joints)
  simpa [setsOfBins] using this

/-- C6: the bins the clusterer builds before truncation partition the input:
the concatenation of all the sets' (equivalently, bins') joint lists is a
permutation of the input list, so every input joint occurs in exactly one bin,
none dropped and none duplicated; moreover no two bins share a key. -/
theorem binsOf_partition (joints : List Joint) :
    ((setsOfBins (binsOf joints)).map JointSet.joints).flatten.Perm joints ∧
      ((binsOf joints).map Bin.joints).flatten.Perm joints ∧
      ((binsOf joints).map Bin.key).Nodup := by
  have hperm : ((binsOf joints).map Bin.joints).flatten.Perm joints := by
    simpa [binsOf] using foldl_binStep_join_perm joints []
  refine ⟨?_, hperm, foldl_binStep_keys_nodup joints [] (by simp)⟩
  rw [setsOfBins_joints]
  exact hperm


theorem foldl_dedupStep_mono (t : ℚ) (l : List LineSegment) :
    ∀ (acc : List LineSegment) (a : LineSegment), a ∈ acc → a ∈ l.foldl (dedupStep t) acc := by
  induction l with
  | nil => intro acc a ha; exact ha
  | cons s rest ih =>
    intro acc a ha
    simp only [List.foldl_cons]
    apply ih
    unfold dedupStep
    split
    · exact ha
    · exact List.mem_append_left _ ha

theorem dedup_foldl_invariant (t : ℚ) (l : List LineSegment) :
    ∀ (acc : List LineSegment),
      l.Pairwise lenGe →
      acc.Pairwise (fun a b => isDuplicateOf b a t = false ∧ lenGe a b) →
      (∀ a ∈ acc, ∀ s ∈ l, lenGe a s) →
      (l.foldl (dedupStep t) acc).Pairwise
          (fun a b => isDuplicateOf b a t = false ∧ lenGe a b) ∧
        ∀ s ∈ l, s ∈ l.foldl (dedupStep t) acc ∨
          ∃ e ∈ l.foldl (dedupStep t) acc,
            isDuplicateOf s e t = true ∧ s.length ≤ e.length := by
  induction l with
  | nil =>
    intro acc _ hacc _
    exact ⟨hacc, by simp⟩
  | cons s rest ih =>
    intro acc hl hacc hcross
    have hlrest : rest.Pairwise lenGe := hl.of_cons
    have hlhead : ∀ b ∈ rest, lenGe s b := (List.pairwise_cons.mp hl).1
    simp only [List.foldl_cons]
    by_cases hdup : acc.any (fun existing => isDuplicateOf s existing t) = true
    · have hstep : dedupStep t acc s = acc := by simp [dedupStep, hdup]
      rw [hstep]
      have hcross' : ∀ a ∈ acc, ∀ x ∈ rest, lenGe a x := fun a ha x hx =>
        hcross a ha x (List.mem_cons_of_mem s hx)
      obtain ⟨hpair, hrej⟩ := ih acc hlrest hacc hcross'
      refine ⟨hpair, ?_⟩
      intro x hx
      rcases List.mem_cons.mp hx with rfl | hxr
      · right
        obtain ⟨e, he, hed⟩ := List.any_eq_true.mp hdup
        refine ⟨e, foldl_dedupStep_mono t rest acc e he, hed, ?_⟩
        exact hcross e he x (List.mem_cons_self x rest)
      · exact hrej x hxr
    · have hdupf : acc.any (fun existing => isDuplicateOf s existing t) = false :=
        Bool.not_eq_true _ ▸ eq_false_of_ne_true hdup
      have hnone : ∀ e ∈ acc, isDuplicateOf s e t = false := by
        intro e he
        have := List.any_eq_false.mp hdupf e he
        simpa using this
      have hstep : dedupStep t acc s = acc ++ [s] := by simp [dedupStep, hdupf]
      rw [hstep]
      have hacc' : (acc ++ [s]).Pairwise (fun a b => isDuplicateOf b a t = false ∧ lenGe a b) := by
        rw [List.pairwise_append]
        refine ⟨hacc, List.pairwise_singleton _ _, ?_⟩
        intro a ha b hb
        rw [List.mem_singleton] at hb
        subst hb
        exact ⟨hnone a ha, hcross a ha b (List.mem_cons_self b rest)⟩
      have hcross' : ∀ a ∈ acc ++ [s], ∀ x ∈ rest, lenGe a x := by
        intro a ha x hx
        rcases List.mem_append.mp ha with har | has
        · exact hcross a har x (List.mem_cons_of_mem s hx)
        · rw [List.mem_singleton] at has
          subst has
          exact hlhead x hx
      obtain ⟨hpair, hrej⟩ := ih (acc ++ [s]) hlrest hacc' hcross'
      refine ⟨hpair, ?_⟩
      intro x hx
      rcases List.mem_cons.mp hx with rfl | hxr
      · left
        exact foldl_dedupStep_mono t rest (acc ++ [x]) x (List.mem_append_right _ (by simp))
      · exact hrej x hxr

/-- C2 (amended): the deduplicator keeps no pair of segments where the later
(not longer) one is judged a duplicate of the earlier one, and every input
segment is either kept or judged a duplicate of some kept segment at least as
long as it.  (The literal claim - that of ANY two input segments judged
duplicates the longer is kept and the shorter dropped - fails when a chain of
overlaps rejects the middle segment; see the counterexample.) -/
theorem removeDuplicateLines_length_preference (segments : List LineSegment) (t : ℚ) :
    (removeDuplicateLines segments t).Pairwise
        (fun a b => isDuplicateOf b a t = false ∧ b.length ≤ a.length) ∧
      ∀ s ∈ segments, s ∈ removeDuplicateLines segments t ∨
        ∃ e ∈ removeDuplicateLines segments t,
          isDuplicateOf s e t = true ∧ s.length ≤ e.length := by
  have hsorted : (sortByLengthDesc segments).Pairwise lenGe :=
    List.sorted_insertionSort lenGe segments
  obtain ⟨hpair, hrej⟩ :=
    dedup_foldl_invariant t (sortByLengthDesc segments) [] hsorted (by simp) (by simp)
  exact ⟨hpair, fun s hs =>
    hrej s ((List.mem_insertionSort lenGe).mpr hs)⟩

/-- Witness for the C2 amended theorem on a concrete two-segment input. -/
theorem removeDuplicateLines_length_preference_witness :
    segB ∈ removeDuplicateLines [segA, segB] 15 ∨
      ∃ e ∈ removeDuplicateLines [segA, segB] 15,
        isDuplicateOf segB e 15 = true ∧ segB.length ≤ e.length :=
  (removeDuplicateLines_length_preference [segA, segB] 15).2 segB (by simp)

/-- C2 counterexample: `segB` and `segC` are judged duplicates of each other
and `segB` is the longer, yet the deduplicator keeps the shorter `segC` (which
was only compared against `segA`) and drops `segB`. -/
theorem removeDuplicateLines_length_preference_counterexample :
    isDuplicateOf segC segB 15 = true ∧ isDuplicateOf segB segC 15 = true ∧
      segC.length < segB.length ∧
      removeDuplicateLines [segA, segB, segC] 15 = [segA, segC] := by
  refine ⟨?_, ?_, ?_, ?_⟩
  · norm_num [isDuplicateOf, endpointMatch, collinearContainment, distLt, calculateDistanceSq,
      pointToLineDistanceLt, crossTerm, midpointOf, normalizedAngleDiff, segB, segC]
  · norm_num [isDuplicateOf, endpointMatch, collinearContainment, distLt, calculateDistanceSq,
      pointToLineDistanceLt, crossTerm, midpointOf, normalizedAngleDiff, segB, segC]
  · norm_num [segB, segC]
  · norm_num [removeDuplicateLines, sortByLengthDesc, List.insertionSort, List.orderedInsert,
      lenGe, dedupStep, List.any, isDuplicateOf, endpointMatch, collinearContainment, distLt,
      calculateDistanceSq, pointToLineDistanceLt, crossTerm, midpointOf, normalizedAngleDiff,
      segA, segB, segC]

theorem foldl_dedupStep_all_new (t : ℚ) (l : List LineSegment) :
    ∀ (acc : List LineSegment),
      (∀ s ∈ l, ∀ e ∈ acc, isDuplicateOf s e t = false) →
      l.Pairwise (fun a b => isDuplicateOf b a t = false) →
      l.foldl (dedupStep t) acc = acc ++ l := by
  induction l with
  | nil => intro acc _ _; simp
  | cons s rest ih =>
    intro acc hnew hl
    have hdupf : acc.any (fun existing => isDuplicateOf s existing t) = false := by
      rw [List.any_eq_false]
      intro e he
      simp [hnew s (List.mem_cons_self s rest) e he]
    simp only [List.foldl_cons, dedupStep, hdupf, Bool.false_eq_true, if_false]
    rw [ih (acc ++ [s]) ?_ hl.of_cons]
    · simp
    · intro x hx e he
      rcases List.mem_append.mp he with her | hes
      · exact hnew x (List.mem_cons_of_mem s hx) e her
      · rw [List.mem_singleton] at hes
        subst hes
        exact (List.pairwise_cons.mp hl).1 x hx

/-- C4: the deduplicator is idempotent - rerunning it on its own output (same
threshold) returns the output unchanged - because the output never contains a
pair where the later-processed segment is judged a duplicate of an
earlier-accepted one, which is the only direction the rerun consults. -/
theorem removeDuplicateLines_idempotent (segments : List LineSegment) (t : ℚ) :
    removeDuplicateLines (removeDuplicateLines segments t) t =
        removeDuplicateLines segments t ∧
      (removeDuplicateLines segments t).Pairwise
        (fun a b => isDuplicateOf b a t = false) := by
  have hsorted : (sortByLengthDesc segments).Pairwise lenGe :=
    List.sorted_insertionSort lenGe segments
  obtain ⟨hpair, -⟩ :=
    dedup_foldl_invariant t (sortByLengthDesc segments) [] hsorted (by simp) (by simp)
  have hnodup : (removeDuplicateLines segments t).Pairwise
      (fun a b => isDuplicateOf b a t = false) := hpair.imp (fun h => h.1)
  have hlen : (removeDuplicateLines segments t).Pairwise lenGe := hpair.imp (fun h => h.2)
  refine ⟨?_, hnodup⟩
  have hsort_eq : sortByLengthDesc (removeDuplicateLines segments t) =
      removeDuplicateLines segments t := List.Sorted.insertionSort_eq hlen
  show (sortByLengthDesc (removeDuplicateLines segments t)).foldl (dedupStep t) [] = _
  rw [hsort_eq, foldl_dedupStep_all_new t (removeDuplicateLines segments t) []
    (by simp) hnodup]
  simp


theorem reassignSets_length (i : ℕ) (l : List JointSet) :
    (reassignSets i l).length = l.length := by
  induction l generalizing i with
  | nil => rfl
  | cons s rest ih => simp [reassignSets, ih]

theorem reassignSets_getD (i k : ℕ) (l : List JointSet) (h : k < l.length) :
    (reassignSets i l).getD k dummyJointSet =
      ⟨i + k + 1, (l.getD k dummyJointSet).meanOrientation, (l.getD k dummyJointSet).count,
        (l.getD k dummyJointSet).joints, (l.getD k dummyJointSet).totalLength,
        (l.getD k dummyJointSet).meanLength,
        SET_COLORS.getD ((i + k) % SET_COLORS.length) ""⟩ := by
  induction l generalizing i k with
  | nil => simp at h
  | cons s rest ih =>
    cases k with
    | zero => simp [reassignSets]
    | succ k =>
      have hk : k < rest.length := by simpa using h
      have heq := ih (i + 1) k hk
      have harith : i + 1 + k = i + (k + 1) := by omega
      simp only [reassignSets, List.getD_cons_succ]
      rw [heq, harith]

theorem reassignSets_map_count (i : ℕ) (l : List JointSet) :
    (reassignSets i l).map JointSet.count = l.map JointSet.count := by
  induction l generalizing i with
  | nil => rfl
  | cons s rest ih => simp [reassignSets, ih]

/-- C7: the clusterer's output is sorted by descending member count, has at
most `maxSets` elements, and the set at (0-based) index `i` has `id = i + 1`
and color `SET_COLORS[i % 12]`, where the palette `SET_COLORS` has 12 fixed
colors. -/
theorem clusterJointsByOrientation_output (joints : List Joint) (maxSets : ℕ) :
    SET_COLORS.length = 12 ∧
      (clusterJointsByOrientation joints maxSets).Pairwise (fun a b => b.count ≤ a.count) ∧
      (clusterJointsByOrientation joints maxSets).length ≤ maxSets ∧
      ∀ i : ℕ, i < (clusterJointsByOrientation joints maxSets).length →
        ((clusterJointsByOrientation joints maxSets).getD i dummyJointSet).id = i + 1 ∧
          ((clusterJointsByOrientation joints maxSets).getD i dummyJointSet).color =
            SET_COLORS.getD (i % 12) "" := by
  refine ⟨rfl, ?_, ?_, ?_⟩
  · by_cases hj : joints.length = 0
    · simp [clusterJointsByOrientation, hj]
    · unfold clusterJointsByOrientation
      rw [if_neg hj]
      set taken := (List.insertionSort countGe (setsOfBins (binsOf joints))).take maxSets
        with htaken
      have hsorted : taken.Pairwise countGe :=
        List.Pairwise.sublist (List.take_sublist maxSets _)
          (List.sorted_insertionSort countGe (setsOfBins (binsOf joints)))
      have hmap : (reassignSets 0 taken).map JointSet.count = taken.map JointSet.count :=
        reassignSets_map_count 0 taken
      have : ((reassignSets 0 taken).map JointSet.count).Pairwise (fun a b : ℕ => b ≤ a) := by
        rw [hmap]
        exact List.pairwise_map.mpr hsorted
      have := List.pairwise_map.mp this
      exact this
  · by_cases hj : joints.length = 0
    · simp [clusterJointsByOrientation, hj]
    · unfold clusterJointsByOrientation
      rw [if_neg hj, reassignSets_length]
      exact (List.length_take _ _).le.trans (min_le_left _ _)
  · intro i hi
    by_cases hj : joints.length = 0
    · rw [clusterJointsByOrientation, if_pos hj] at hi
      simp at hi
    · rw [clusterJointsByOrientation, if_neg hj] at hi ⊢
      rw [reassignSets_length] at hi
      rw [reassignSets_getD 0 i _ hi]
      constructor
      · simp
      · simp only [Nat.zero_add, show SET_COLORS.length = 12 from rfl]

/-- Witness for C7 at a concrete one-joint input. -/
theorem clusterJointsByOrientation_output_witness :
    ((clusterJointsByOrientation [jointA] 1).getD 0 dummyJointSet).id = 0 + 1 ∧
      ((clusterJointsByOrientation [jointA] 1).getD 0 dummyJointSet).color =
        SET_COLORS.getD (0 % 12) "" :=
  (clusterJointsByOrientation_output [jointA] 1).2.2.2 0 (by
    norm_num [clusterJointsByOrientation, reassignSets_length, binsOf, binStep, addToBins,
      normalizedOrientationOf, normalizeOrientation, jsMod, ratTrunc, binKey, jointA,
      setsOfBins, setStep, List.insertionSort, List.orderedInsert, countGe, reassignSets])


/-- C3 (amended): the collinear-containment perpendicular check measures the
UNCLAMPED distance to the infinite line: it is implied by (never exceeds) the
spec's clamped point-to-segment comparison, and agrees with it exactly when the
perpendicular foot falls on the segment (projection parameter in `[0, 1]`).
The endpoint proximity test, by contrast, is `endpointMatch`: plain
endpoint-to-endpoint distances, not a clamped projection (see the
counterexample). -/
theorem pointToLineDistance_unclamped (point lineStart lineEnd : Point) (t : ℚ) :
    (pointToSegDistLtSpec point lineStart lineEnd t = true →
        pointToLineDistanceLt point lineStart lineEnd t = true) ∧
      (0 ≤ dotParam point lineStart lineEnd →
        dotParam point lineStart lineEnd ≤ calculateDistanceSq lineStart lineEnd →
        pointToLineDistanceLt point lineStart lineEnd t =
          pointToSegDistLtSpec point lineStart lineEnd t) := by
  have hLag : crossTerm point lineStart lineEnd * crossTerm point lineStart lineEnd =
      calculateDistanceSq point lineStart * calculateDistanceSq lineStart lineEnd -
        dotParam point lineStart lineEnd * dotParam point lineStart lineEnd := by
    simp only [crossTerm, calculateDistanceSq, dotParam]
    ring
  have hV : calculateDistanceSq point lineEnd =
      calculateDistanceSq point lineStart - 2 * dotParam point lineStart lineEnd +
        calculateDistanceSq lineStart lineEnd := by
    simp only [calculateDistanceSq, dotParam]
    ring
  have hL2 : 0 ≤ calculateDistanceSq lineStart lineEnd := by
    simp only [calculateDistanceSq]
    nlinarith [mul_self_nonneg (lineEnd.x - lineStart.x), mul_self_nonneg (lineEnd.y - lineStart.y)]
  constructor
  · intro hspec
    rw [pointToSegDistLtSpec, Bool.and_eq_true, decide_eq_true_eq, decide_eq_true_eq] at hspec
    obtain ⟨ht, hlt⟩ := hspec
    by_cases hL2z : calculateDistanceSq lineStart lineEnd = 0
    · rw [pointToSegDistSqSpec, if_pos hL2z] at hlt
      simp [pointToLineDistanceLt, if_pos hL2z, distLt, ht, hlt]
    · have hL2pos : 0 < calculateDistanceSq lineStart lineEnd :=
        lt_of_le_of_ne hL2 (Ne.symm hL2z)
      rw [pointToLineDistanceLt, if_neg hL2z]
      simp only [Bool.and_eq_true, decide_eq_true_eq]
      refine ⟨ht, ?_⟩
      rw [pointToSegDistSqSpec, if_neg hL2z] at hlt
      split_ifs at hlt with hD hDL
      · have h1 : calculateDistanceSq point lineStart * calculateDistanceSq lineStart lineEnd <
            t * t * calculateDistanceSq lineStart lineEnd := by
          nlinarith [hlt, hL2pos]
        nlinarith [hLag, mul_self_nonneg (dotParam point lineStart lineEnd), h1]
      · have hC : crossTerm point lineStart lineEnd * crossTerm point lineStart lineEnd =
            calculateDistanceSq point lineEnd * calculateDistanceSq lineStart lineEnd -
              (dotParam point lineStart lineEnd - calculateDistanceSq lineStart lineEnd) *
                (dotParam point lineStart lineEnd - calculateDistanceSq lineStart lineEnd) := by
          rw [hLag, hV]
          ring
        have h1 : calculateDistanceSq point lineEnd * calculateDistanceSq lineStart lineEnd <
            t * t * calculateDistanceSq lineStart lineEnd := by
          nlinarith [hlt, hL2pos]
        nlinarith [hC, h1,
          mul_self_nonneg (dotParam point lineStart lineEnd - calculateDistanceSq lineStart lineEnd)]
      · have hdiv : dotParam point lineStart lineEnd * dotParam point lineStart lineEnd /
            calculateDistanceSq lineStart lineEnd * calculateDistanceSq lineStart lineEnd =
            dotParam point lineStart lineEnd * dotParam point lineStart lineEnd :=
          div_mul_cancel₀ _ (ne_of_gt hL2pos)
        have h1 := mul_lt_mul_of_pos_right hlt hL2pos
        rw [sub_mul, hdiv] at h1
        linarith [hLag, h1]
  · intro hD0 hDL
    by_cases hL2z : calculateDistanceSq lineStart lineEnd = 0
    · simp [pointToLineDistanceLt, pointToSegDistLtSpec, pointToSegDistSqSpec, if_pos hL2z,
        distLt]
    · have hL2pos : 0 < calculateDistanceSq lineStart lineEnd :=
        lt_of_le_of_ne hL2 (Ne.symm hL2z)
      rw [pointToLineDistanceLt, if_neg hL2z, pointToSegDistLtSpec]
      congr 1
      rw [decide_eq_decide]
      rw [pointToSegDistSqSpec, if_neg hL2z]
      split_ifs with hD hDL2
      · have hDzero : dotParam point lineStart lineEnd = 0 := le_antisymm hD hD0
        rw [hDzero] at hLag
        constructor
        · intro h
          have h2 : calculateDistanceSq point lineStart * calculateDistanceSq lineStart lineEnd <
              t * t * calculateDistanceSq lineStart lineEnd := by linarith [hLag]
          exact (mul_lt_mul_right hL2pos).mp h2
        · intro h
          have h2 := (mul_lt_mul_right hL2pos).mpr h
          linarith [hLag, h2]
      · have hDeq : dotParam point lineStart lineEnd = calculateDistanceSq lineStart lineEnd :=
          le_antisymm hDL hDL2
        have hC : crossTerm point lineStart lineEnd * crossTerm point lineStart lineEnd =
            calculateDistanceSq point lineEnd * calculateDistanceSq lineStart lineEnd := by
          rw [hLag, hV, hDeq]
          ring
        constructor
        · intro h
          rw [hC] at h
          exact (mul_lt_mul_right hL2pos).mp (by linarith [h])
        · intro h
          rw [hC]
          have := (mul_lt_mul_right hL2pos).mpr h
          linarith [this]
      · have hdiv : dotParam point lineStart lineEnd * dotParam point lineStart lineEnd /
            calculateDistanceSq lineStart lineEnd * calculateDistanceSq lineStart lineEnd =
            dotParam point lineStart lineEnd * dotParam point lineStart lineEnd :=
          div_mul_cancel₀ _ (ne_of_gt hL2pos)
        constructor
        · intro h
          have h2 : (calculateDistanceSq point lineStart -
              dotParam point lineStart lineEnd * dotParam point lineStart lineEnd /
                calculateDistanceSq lineStart lineEnd) * calculateDistanceSq lineStart lineEnd <
              t * t * calculateDistanceSq lineStart lineEnd := by
            rw [sub_mul, hdiv]
            linarith [hLag, h]
          exact (mul_lt_mul_right hL2pos).mp h2
        · intro h
          have h2 := mul_lt_mul_of_pos_right h hL2pos
          rw [sub_mul, hdiv] at h2
          linarith [hLag, h2]

/-- Witness for the C3 amended theorem: a point 5 px above the line through
`(0,0)` and `(100,0)`, once beyond the segment start (unclamped check implied
by the clamped one) and once above the segment middle (checks agree). -/
theorem pointToLineDistance_unclamped_witness :
    pointToLineDistanceLt ⟨-3, 4⟩ ⟨0, 0⟩ ⟨100, 0⟩ 15 = true ∧
      pointToLineDistanceLt ⟨50, 5⟩ ⟨0, 0⟩ ⟨100, 0⟩ 15 =
        pointToSegDistLtSpec ⟨50, 5⟩ ⟨0, 0⟩ ⟨100, 0⟩ 15 :=
  ⟨(pointToLineDistance_unclamped ⟨-3, 4⟩ ⟨0, 0⟩ ⟨100, 0⟩ 15).1 (by
      norm_num [pointToSegDistLtSpec, pointToSegDistSqSpec, dotParam, calculateDistanceSq]),
    (pointToLineDistance_unclamped ⟨50, 5⟩ ⟨0, 0⟩ ⟨100, 0⟩ 15).2
      (by norm_num [dotParam]) (by norm_num [dotParam, calculateDistanceSq])⟩

/-- C3 counterexample: against the accepted segment `segA`, the candidate
`segD` passes the spec's clamped point-to-segment endpoint test (both clamped
distances are 5 < 15) but the source's endpoint proximity test fails (all
endpoint-to-endpoint distances exceed 40): the endpoint test does not measure
a clamped point-to-segment distance. -/
theorem endpoint_test_not_clamped_counterexample :
    endpointMatchSpec segD segA 15 = true ∧ endpointMatch segD segA 15 = false := by
  constructor
  · norm_num [endpointMatchSpec, pointToSegDistLtSpec, pointToSegDistSqSpec, dotParam,
      calculateDistanceSq, segD, segA]
  · norm_num [endpointMatch, distLt, calculateDistanceSq, segD, segA]


/-- C1 (amended): for an empty joint list `calculateFractureStats` returns
`jointCount = 0` and zero for every other numeric field except `areaAnalyzed`,
which is the photographed area `(w / pixelsPerMeter) * (h / pixelsPerMeter)`
regardless of the joint list. -/
theorem calculateFractureStats_empty (scale : ScaleData) (w h : ℚ) :
    (calculateFractureStats [] scale w h).jointCount = 0 ∧
    (calculateFractureStats [] scale w h).totalLength = 0 ∧
    (calculateFractureStats [] scale w h).meanLength = 0 ∧
    (calculateFractureStats [] scale w h).medianLength = 0 ∧
    (calculateFractureStats [] scale w h).minLength = 0 ∧
    (calculateFractureStats [] scale w h).maxLength = 0 ∧
    (calculateFractureStats [] scale w h).p21 = 0 ∧
    (calculateFractureStats [] scale w h).frequency = 0 ∧
    (calculateFractureStats [] scale w h).areaAnalyzed =
      w / scale.pixelsPerMeter * (h / scale.pixelsPerMeter) := by
  simp [calculateFractureStats, zero_div]

/-- C1 counterexample: with an empty joint list, scale 100 px/m and a
1000 x 800 px photo, `areaAnalyzed` is 80, not 0, so not every numeric field
other than `jointCount` is zero. -/
theorem calculateFractureStats_empty_counterexample :
    (calculateFractureStats [] scale100 1000 800).jointCount = 0 ∧
    (calculateFractureStats [] scale100 1000 800).areaAnalyzed ≠ 0 := by
  constructor
  · rfl
  · norm_num [calculateFractureStats, scale100]

end RockJoint

